import Mathlib

/-!
Shallow embedding of the reference-assignment engine of the
auto_reference_generator repository (src/auto_reference_generator/):

* common.py      : keyword_replace, suffix_addition, suffix_subtraction
* hash.py        : HashGenerator.hash_generator (algorithm dispatch + hex form)
* reference_generator.py :
    ReferenceGenerator.filter_directories, list_directories,
    parse_directory_dict (the fields relevant to referencing),
    init_dataframe / init_reference_loop / reference_loop,
    accession_running_number, remove_empty_directories.

Filesystem entries are modelled as a finite tree; absolute paths as lists of
path components (the root directory is a one-element path, so Python's
os.path.dirname of the root is the empty list, a path owned by no record).
Python integers are Int, Python str(int) is intToStr, int(str) is strToInt?.
Values that Python stores either as int or as str (the running reference)
are modelled by RefVal.  Fallible code returns Except String.
Filesystem metadata (sizes, timestamps) and the tabular export layer are out
of scope of every claim and are not modelled.
-/

/-- Python str.upper / str.lower, per character (ASCII behaviour). -/
def pyUpper (s : String) : String := ⟨s.data.map Char.toUpper⟩

/-- Python str.lower, per character (ASCII behaviour). -/
def pyLower (s : String) : String := ⟨s.data.map Char.toLower⟩

/-- Boolean list-prefix test (used to model Python substring search). -/
def listIsPrefix : List Char → List Char → Bool
  | [], _ => true
  | _ :: _, [] => false
  | a :: as, b :: bs => a == b && listIsPrefix as bs

/-- Boolean infix test: does `pat` occur inside `s`. -/
def listIsInfix (pat : List Char) : List Char → Bool
  | [] => pat.isEmpty
  | c :: cs => listIsPrefix pat (c :: cs) || listIsInfix pat cs

/-- Python `needle in hay` on strings. -/
def strContains (hay needle : String) : Bool := listIsInfix needle.data hay.data

/-- Decimal digit to character. -/
def digitChar (d : Nat) : Char := Char.ofNat (48 + d)

/-- Decimal rendering of a positive Nat, most significant digit first.
The first argument is fuel; `natToStrAux (n+1) n` renders n fully. -/
def natToStrAux : Nat → Nat → List Char
  | 0, _ => []
  | fuel + 1, n => if n = 0 then [] else natToStrAux fuel (n / 10) ++ [digitChar (n % 10)]

/-- Python str(n) for a Nat. -/
def natToStr (n : Nat) : String := if n = 0 then "0" else ⟨natToStrAux (n + 1) n⟩

/-- Python str(i) for an int. -/
def intToStr (i : Int) : String := if i < 0 then "-" ++ natToStr i.natAbs else natToStr i.natAbs

/-- Numeric value of a decimal digit character. -/
def digitVal (c : Char) : Nat := c.toNat - 48

/-- Value of a list of decimal digit characters, most significant first. -/
def parseDigits (l : List Char) : Nat := l.foldl (fun a c => a * 10 + digitVal c) 0

/-- Python int(s): optional sign followed by decimal digits, else failure.
(Whitespace stripping, a leading +, and underscore separators accepted by
Python are not modelled; no token produced by the engine uses them.) -/
def strToInt? (s : String) : Option Int :=
  match s.data with
  | [] => none
  | c :: cs =>
      if c = '-' then
        if cs ≠ [] ∧ cs.all Char.isDigit then some (-(parseDigits cs : Int)) else none
      else if (c :: cs).all Char.isDigit then some (parseDigits (c :: cs) : Int)
      else none

/-- Python s.replace(pat, "") on char lists; first argument is fuel
(`s.length` suffices). -/
def replaceAllAux (pat : List Char) : Nat → List Char → List Char
  | _, [] => []
  | 0, s => s
  | fuel + 1, c :: cs =>
      if pat ≠ [] ∧ listIsPrefix pat (c :: cs) then
        replaceAllAux pat fuel ((c :: cs).drop pat.length)
      else c :: replaceAllAux pat fuel cs

/-- Python s.replace(pat, "") on strings. -/
def pyReplace (s pat : String) : String := ⟨replaceAllAux pat.data s.data.length s.data⟩

/-- Python s.split(sep, maxsplit) (sep a single char): a negative maxsplit
means unlimited; once the budget is 0 the rest is one piece. -/
def pySplitAux (sep : Char) : List Char → Int → List Char → List String
  | [], _, acc => [⟨acc.reverse⟩]
  | c :: cs, n, acc =>
      if c = sep ∧ n ≠ 0 then (⟨acc.reverse⟩ : String) :: pySplitAux sep cs (n - 1) []
      else pySplitAux sep cs n (c :: acc)

/-- Python s.split(" ", maxsplit). -/
def pySplitSpace (s : String) (maxsplit : Int) : List String :=
  pySplitAux ' ' s.data maxsplit []

/-- A value that Python holds either as an int or as a str (the running
reference token). -/
inductive RefVal where
  | num (n : Int)
  | str (s : String)
deriving DecidableEq, Repr

/-- Python str(v) on a RefVal. -/
def refToString : RefVal → String
  | .num n => intToStr n
  | .str s => s

/-- Python int(v) on a RefVal: the identity on ints, decimal parsing on strs. -/
def pyInt? : RefVal → Option Int
  | .num n => some n
  | .str s => strToInt? s

/-- Python str(x) where x : Option String is a possibly-None variable
(str(None) = "None"). -/
def optStr : Option String → String
  | some s => s
  | none => "None"

/-- A filesystem entry: a file or a directory with its children. -/
inductive FSTree where
  | file (name : String)
  | dir (name : String) (children : List FSTree)

/-- Name of an entry. -/
def FSTree.name : FSTree → String
  | .file n => n
  | .dir n _ => n

/-- os.path.isdir. -/
def FSTree.isDir : FSTree → Bool
  | .file _ => false
  | .dir _ _ => true

/-- os.path.isfile. -/
def FSTree.isFile : FSTree → Bool
  | .file _ => true
  | .dir _ _ => false

/-- An absolute path, as its list of components; the catalogued root is a
one-component path. -/
abbrev FPath := List String

/-- One row of the record set built by parse_directory_dict, restricted to the
fields the reference computation reads (FullName, Parent, Type, Level,
Ref_Section) plus the Archive_Reference output column. -/
structure Record where
  fullName : FPath
  parent : FPath
  attr : String
  level : Nat
  refSection : RefVal
  finalReference : Option String := none
deriving DecidableEq, Repr

/-- The constructor arguments of ReferenceGenerator that the claims exercise,
with the source's defaults.  keywordsJson models the parsed content of the
JSON file named by the keywords list in from_json mode. -/
structure Config where
  pfx : Option String := none
  sfx : Option String := none
  suffixOptions : String := "apply_to_files"
  levelLimit : Option Int := none
  accPfxArg : Option String := none
  startRef : Int := 1
  delimiter : String := "/"
  keywordsList : Option (List String) := none
  keywordsMode : Option String := none
  keywordsRetainOrder : Bool := false
  keywordsCaseSensitivity : Bool := true
  keywordsAbbreviationNumber : Option Int := none
  keywordsJson : Option (List (String × String)) := none
  accessionFlag : Option String := none
  hiddenFlag : Bool := false
  sortBy : String := "folders_first"
  metafolder : String := "meta"
deriving Repr

/-- self.accession_prefix: accprefix when given, else the reference prefix. -/
def Config.accessionPfx (cfg : Config) : Option String :=
  match cfg.accPfxArg with
  | some p => some p
  | none => cfg.pfx

/-- Python s.startswith(c) for a single-character pattern. -/
def startsWithChar (s : String) (c : Char) : Bool :=
  match s.data with
  | [] => false
  | d :: _ => d == c

/-- ≤ on char lists in code-point order (models comparison of Python strs). -/
def charListLe : List Char → List Char → Bool
  | [], _ => true
  | _ :: _, [] => false
  | a :: as, b :: bs => if a = b then charListLe as bs else Nat.blt a.toNat b.toNat

/-- The sort key (os.path.isfile(x), str.casefold(name)) of the default
folders-first ordering, or plain casefolded name for alphabetical order. -/
def sortKeyOf (cfg : Config) (c : FSTree) : Bool × String :=
  if cfg.sortBy = "alphabetical" then (false, pyLower c.name) else (c.isFile, pyLower c.name)

/-- ≤ on sort keys: tuple comparison, False < True on the kind flag. -/
def keyLe (k1 k2 : Bool × String) : Bool :=
  if k1.1 = k2.1 then charListLe k1.2.data k2.2.data else (!k1.1 && k2.1)

/-- Stable insertion of an entry into an already sorted list. -/
def insertEntry (cfg : Config) (x : FSTree) : List FSTree → List FSTree
  | [] => [x]
  | y :: ys =>
      if keyLe (sortKeyOf cfg x) (sortKeyOf cfg y) then x :: y :: ys
      else y :: insertEntry cfg x ys

/-- Stable sort by the configured key (models Python's stable sorted). -/
def sortEntries (cfg : Config) : List FSTree → List FSTree
  | [] => []
  | x :: xs => insertEntry cfg x (sortEntries cfg xs)

/-- ReferenceGenerator.filter_directories: drop hidden and reserved names,
then sort.  (filter_win_hidden is False on non-Windows stat failure and the
Windows hidden attribute is not modelled.) -/
def filter_directories (cfg : Config) (children : List FSTree) : List FSTree :=
  sortEntries cfg
    (if cfg.hiddenFlag then
      children.filter (fun c =>
        c.name ≠ cfg.metafolder ∧ c.name ∉ ["auto_ref.exe", "auto_ref.bin"] ∧
          c.name ≠ "reference_generator.py")
    else
      children.filter (fun c =>
        ¬ startsWithChar c.name '.' = true ∧ c.name ≠ cfg.metafolder ∧
          c.name ∉ ["auto_ref.exe", "auto_ref.bin"] ∧ c.name ≠ "reference_generator.py"))

/-! ## common.keyword_replace (initialise / firstletters modes) -/

/-- The punctuation set stripped by keyword_replace
(Python string.punctuation, via str.maketrans). -/
def punctChars : List Char :=
  ("!\"#$%&()*+,-./:;<=>?@[\\]^_" ++ "\x7b|\x7d~").data ++ [Char.ofNat 39, Char.ofNat 96]

/-- Python slice s[0:n] with an Int bound (a negative bound counts from the
end). -/
def pySlice (s : String) (n : Int) : String :=
  if 0 ≤ n then ⟨s.data.take n.toNat⟩ else ⟨s.data.take (s.data.length - n.natAbs)⟩

/-- The two name-transforming keyword modes of common.keyword_replace
(the from_json mode, which reads a mapping file, is modelled at its call
site in the enumerator). -/
inductive KWMode where
  | initialise
  | firstletters
deriving DecidableEq, Repr

/-- common.keyword_replace for the initialise / firstletters modes.
The file path argument of the source is split into the entry's name
(win_file_split) and an isDir flag (os.path.isdir).  Python's x[0] on an
empty word would raise; it is modelled as the NUL character (no claim
reaches that case). -/
def keyword_replace (keywordsList : List String) (fileName : String) (originalRef : String)
    (keywordsMode : KWMode) (abbreviationNumber : Option Int)
    (keywordsCaseSensitivity : Bool) (isDir : Bool) : String :=
  let kws := if keywordsCaseSensitivity then keywordsList.map pyUpper else keywordsList
  let fname := if keywordsCaseSensitivity then pyUpper fileName else fileName
  if (kws.length = 0 ∨ kws.any (fun kw => strContains kw fname)) ∧ isDir then
    let replaceRef : String := ⟨fname.data.filter (fun c => c ∉ punctChars)⟩
    match keywordsMode with
    | .initialise =>
        if (pySplitSpace replaceRef (-1)).length > 1 then
          let ab := abbreviationNumber.getD (-1)
          ⟨(pySplitSpace (pyUpper replaceRef) ab).map (fun x => x.data.headD (Char.ofNat 0))⟩
        else
          let ab := abbreviationNumber.getD 3
          pyReplace (pyUpper (pySlice replaceRef ab)) " "
    | .firstletters =>
        let ab := abbreviationNumber.getD 3
        pyReplace (pyUpper (pySlice replaceRef ab)) " "
  else originalRef

/-! ## ReferenceGenerator.accession_running_number -/

/-- accession_running_number: one visit of an entry; returns the produced
code (None when accession mode is off or unrecognised) and the new counter.
In mode "all" with a truthy prefix the increment statement is inside the
prefix-is-falsy else branch of the source and therefore does not run. -/
def accession_running_number (accFlag : Option String) (accPfx : Option String)
    (delimiter : String) (isDir : Bool) (count : Int) : Option RefVal × Int :=
  match accFlag with
  | none => (none, count)
  | some flag =>
      if pyLower flag = "file" then
        if isDir then
          (some (.str (match accPfx with
                       | some p => p ++ delimiter ++ "Dir"
                       | none => "Dir")), count)
        else
          match accPfx with
          | some p => (some (.str (p ++ delimiter ++ intToStr count)), count + 1)
          | none => (some (.num count), count + 1)
      else if pyLower flag = "dir" then
        if isDir then
          match accPfx with
          | some p => (some (.str (p ++ delimiter ++ intToStr count)), count + 1)
          | none => (some (.num count), count + 1)
        else
          (some (.str (match accPfx with
                       | some p => p ++ delimiter ++ "File"
                       | none => "File")), count)
      else if pyLower flag = "all" then
        match accPfx with
        | some p => (some (.str (p ++ delimiter ++ intToStr count)), count)
        | none => (some (.num count), count + 1)
      else (none, count)

/-- A run of accession_running_number over a sequence of visited entries
(true = directory, false = file), threading the counter. -/
def run_accession (accFlag accPfx : Option String) (delimiter : String) :
    List Bool → Int → List (Option RefVal)
  | [], _ => []
  | d :: rest, c =>
      let step := accession_running_number accFlag accPfx delimiter d c
      step.1 :: run_accession accFlag accPfx delimiter rest step.2

/-! ## ReferenceGenerator.list_directories -/

/-- The keyword-replacement block of list_directories (lines 296-337).
When the list-style keyword branch fires, the source calls
common.keyword_replace as keyword_replace(name, mode=..., abbreviation_number=...),
which does not match that function's signature
(keywords_list, file_path, original_ref, keywords_mode=..., ...); Python
raises TypeError before any token is produced, and the enclosing
try/except turns it into SystemError.  The from_json branch performs the
dictionary lookup inline and does work; the parsed JSON object is taken
from the configuration. -/
def keywordStep (cfg : Config) (isDir : Bool) (name : String) (ref : Int) (pref : Option Int) :
    Except String (RefVal × Option Int) :=
  match cfg.keywordsList with
  | none => .ok (.num ref, pref)
  | some kws =>
      let kwName := if cfg.keywordsCaseSensitivity then pyUpper name else name
      if kws.length = 0 ∧ isDir then
        .error "TypeError: keyword_replace() got an unexpected keyword argument"
      else if kws.any (fun kw => strContains kw kwName) ∧ isDir then
        .error "TypeError: keyword_replace() got an unexpected keyword argument"
      else if cfg.keywordsMode = some "from_json" ∧ isDir then
        match cfg.keywordsJson with
        | none => .error "SystemExit: keywords JSON file is not a valid dictionary"
        | some dict =>
            let dict' :=
              if cfg.keywordsCaseSensitivity then dict.map (fun kv => (pyUpper kv.1, kv.2))
              else dict
            if dict'.any (fun kv => strContains kv.1 kwName) then
              let pref' := if cfg.keywordsRetainOrder then some ref else some (ref - 1)
              let v := optStr ((dict'.find? (fun kv => kv.1 = kwName)).map (fun kv => kv.2))
              .ok (.str v, pref')
            else .ok (.num ref, pref)
      else .ok (.num ref, pref)

/-- Does the configured suffix target match this entry kind. -/
def suffixApplies (cfg : Config) (isDir : Bool) : Bool :=
  (cfg.suffixOptions = "apply_to_files" ∧ ¬isDir) ∨
    (cfg.suffixOptions = "apply_to_folders" ∧ isDir) ∨
      cfg.suffixOptions = "apply_to_both"

/-- The suffix-addition block of list_directories: ref = str(ref) + suffix
when the target matches. -/
def suffix_addition (cfg : Config) (isDir : Bool) (r : RefVal) : RefVal :=
  match cfg.sfx with
  | none => r
  | some s => if suffixApplies cfg isDir then .str (refToString r ++ s) else r

/-- The suffix-removal block: ref = str(ref).replace(suffix, "") when the
target matches. -/
def suffix_subtraction (cfg : Config) (isDir : Bool) (r : RefVal) : RefVal :=
  match cfg.sfx with
  | none => r
  | some s => if suffixApplies cfg isDir then .str (pyReplace (refToString r) s) else r

/-- One iteration of the child loop of list_directories for a single entry:
keyword replacement, suffix addition, the level-limit blanking of the
recorded token, suffix removal, and the counter advance
(if pref: ref = int(pref) + 1; pref = None / else: ref = int(ref) + 1,
a truthiness test under which pref = 0 counts as absent).
Returns (recorded token, next counter, next pref). -/
def childStep (cfg : Config) (isDir : Bool) (name : String) (level : Nat)
    (ref : Int) (pref : Option Int) : Except String (RefVal × Int × Option Int) :=
  match keywordStep cfg isDir name ref pref with
  | .error e => .error e
  | .ok (ref1, pref1) =>
      let ref2 := suffix_addition cfg isDir ref1
      let recTok : RefVal :=
        match cfg.levelLimit with
        | some lim => if (level : Int) > lim then .str "" else ref2
        | none => ref2
      let ref3 := suffix_subtraction cfg isDir ref2
      match pref1 with
      | some p =>
          if p ≠ 0 then .ok (recTok, p + 1, none)
          else
            match pyInt? ref3 with
            | some m => .ok (recTok, m + 1, pref1)
            | none => .error "ValueError: invalid literal for int()"
      | none =>
          match pyInt? ref3 with
          | some m => .ok (recTok, m + 1, pref1)
          | none => .error "ValueError: invalid literal for int()"

/-- The child loop of list_directories over an already filtered and sorted
sibling list: record each entry (appending, in order, the entry's record,
then the records of its subtree, then the later siblings), recursing into
each directory with a fresh counter of 1.  The level of a child is its
directory's component count (directory.count(os.sep) - root_level + 1).
The first argument is recursion fuel; exhaustion is an error, mirroring
Python's recursion limit. -/
def enumChildren (cfg : Config) : Nat → FPath → List FSTree → Int → Option Int →
    Except String (List Record)
  | _, _, [], _, _ => .ok []
  | 0, _, _ :: _, _, _ => .error "RecursionError: maximum recursion depth exceeded"
  | fuel + 1, dirPath, c :: rest, ref, pref =>
      match childStep cfg c.isDir c.name dirPath.length ref pref with
      | .error e => .error e
      | .ok (recTok, next, pref2) =>
          let rec0 : Record :=
            { fullName := dirPath ++ [c.name], parent := dirPath,
              attr := if c.isDir then "Dir" else "File",
              level := dirPath.length, refSection := recTok }
          match (match c with
                 | .dir _ gcs =>
                     enumChildren cfg fuel (dirPath ++ [c.name]) (filter_directories cfg gcs) 1 none
                 | .file _ => .ok []) with
          | .error e => .error e
          | .ok sub =>
              match enumChildren cfg fuel dirPath rest next pref2 with
              | .error e => .error e
              | .ok tail => .ok (rec0 :: (sub ++ tail))

/-- ReferenceGenerator.list_directories on a directory's raw child list. -/
def list_directories (cfg : Config) (fuel : Nat) (dirPath : FPath)
    (children : List FSTree) (ref : Int) : Except String (List Record) :=
  enumChildren cfg fuel dirPath (filter_directories cfg children) ref none

/-- The record-building part of init_dataframe: the root record
(level 0, token int 0, parent outside the record set) followed by the
enumeration started at start_ref. -/
def init_records (cfg : Config) (fuel : Nat) (rootName : String)
    (rootChildren : List FSTree) : Except String (List Record) :=
  match list_directories cfg fuel [rootName] rootChildren cfg.startRef with
  | .error e => .error e
  | .ok rest =>
      .ok ({ fullName := [rootName], parent := [], attr := "Dir", level := 0,
             refSection := .num 0 } :: rest)

/-! ## ReferenceGenerator.reference_loop and the compose phase -/

/-- ReferenceGenerator.reference_loop: walk the parent chain upward through
the record set, building the final reference.  The lookup keeps the rows
whose FullName equals the parent; .item() demands exactly one row.
str(None) is "None" when new_ref is still unset.  The first argument is
recursion fuel. -/
def reference_loop (cfg : Config) (records : List Record) :
    Nat → RefVal → FPath → Nat → Nat → Option String → Except String String
  | 0, _, _, _, _, _ => .error "RecursionError: maximum recursion depth exceeded"
  | fuel + 1, ref, parent, track, level, newRef =>
      match records.filter (fun r => r.fullName = parent) with
      | [] =>
          if level = 0 then
            .ok (match cfg.pfx with | some p => p | none => refToString ref)
          else
            .ok (match cfg.pfx with
                 | some p => p ++ cfg.delimiter ++ optStr newRef
                 | none => optStr newRef)
      | [r] =>
          let parentRef := r.refSection
          let newRef' : Option String :=
            if parentRef = RefVal.num 0 then
              some (if track = 1 then refToString ref else optStr newRef)
            else if track = 1 then
              some (if ref = RefVal.str "" then refToString parentRef
                    else refToString parentRef ++ cfg.delimiter ++ refToString ref)
            else if ref = RefVal.str "" ∧ parentRef = RefVal.str "" then newRef
            else some (refToString parentRef ++ cfg.delimiter ++ optStr newRef)
          reference_loop cfg records fuel ref r.parent (track + 1) level newRef'
      | _ => .error "ValueError: can only convert an array of size 1 to a Python scalar"

/-- The loop of init_reference_loop over the remaining records, with the full
record set as the lookup table: one reference_loop run per record, in record
order, from the record's (Ref_Section, Parent, Level) triple; the first
failure aborts. -/
def composeAux (cfg : Config) (fuel : Nat) (records : List Record) :
    List Record → Except String (List String)
  | [] => .ok []
  | r :: rest =>
      match reference_loop cfg records fuel r.refSection r.parent 1 r.level none with
      | .error e => .error e
      | .ok s =>
          match composeAux cfg fuel records rest with
          | .error e => .error e
          | .ok ss => .ok (s :: ss)

/-- The loop of init_reference_loop: one reference_loop run per record, in
record order, from the record's (Ref_Section, Parent, Level) triple. -/
def compose (cfg : Config) (fuel : Nat) (records : List Record) : Except String (List String) :=
  composeAux cfg fuel records records

/-- Writing the produced reference list into the Archive_Reference column. -/
def set_final (records : List Record) (refs : List String) : List Record :=
  (records.zip refs).map (fun pr => { pr.1 with finalReference := some pr.2 })

/-- init_reference_loop: compose every reference, then store the column. -/
def init_reference_loop (cfg : Config) (fuel : Nat) (records : List Record) :
    Except String (List Record) :=
  match compose cfg fuel records with
  | .error e => .error e
  | .ok refs => .ok (set_final records refs)

/-- The full reference pipeline on a directory tree: enumerate, compose, and
pair every record's path with its final reference. -/
def generate_references (cfg : Config) (fuel : Nat) (rootName : String)
    (rootChildren : List FSTree) : Except String (List (FPath × String)) :=
  match init_records cfg fuel rootName rootChildren with
  | .error e => .error e
  | .ok recs =>
      match compose cfg fuel recs with
      | .error e => .error e
      | .ok refs => .ok ((recs.zip refs).map (fun pr => (pr.1.fullName, pr.2)))

/-! ## HashGenerator.hash_generator -/

/-- The four digest families the dispatcher recognises. -/
inductive HashAlg where
  | sha1
  | md5
  | sha256
  | sha512
deriving DecidableEq, Repr

/-- The algorithm dispatch of hash_generator: substring tests against the
selector, in source order, with hashlib.sha1() as the final else. -/
def selectAlgorithm (algorithm : String) : HashAlg :=
  if strContains algorithm "SHA-1" then .sha1
  else if strContains algorithm "MD5" then .md5
  else if strContains algorithm "SHA-256" then .sha256
  else if strContains algorithm "SHA-512" then .sha512
  else .sha1

/-- Lowercase hex digit, as produced by hexdigest(). -/
def hexDigitChar (d : Nat) : Char :=
  if d < 10 then Char.ofNat (48 + d) else Char.ofNat (87 + d)

/-- hexdigest(): two lowercase hex characters per digest byte. -/
def bytesToHex (bs : List Nat) : String :=
  ⟨(bs.map (fun b => [hexDigitChar (b / 16 % 16), hexDigitChar (b % 16)])).flatten⟩

/-- HashGenerator.hash_generator with the underlying digest families left
abstract (hashlib is an external collaborator): dispatch on the selector,
digest the content, return hexdigest().upper(). -/
def hash_generator (digestBytes : HashAlg → List Nat → List Nat)
    (algorithm : String) (content : List Nat) : String :=
  pyUpper (bytesToHex (digestBytes (selectAlgorithm algorithm) content))

/-! ## ReferenceGenerator.remove_empty_directories -/

/-- A directory with no children at scan time. -/
def isEmptyDir : FSTree → Bool
  | .dir _ [] => true
  | _ => false

mutual
/-- The effect of the bottom-up os.walk removal pass on a subtree: every
directory that had no files and no subdirectories when scanned is removed
(a directory whose children are all removed during the pass is scanned
with its stale listing and so survives, as with os.walk topdown=False). -/
def removeEmptyDirs : FSTree → FSTree
  | .file n => .file n
  | .dir n cs => .dir n (removeEmptyForest cs)

/-- removeEmptyDirs over a child list. -/
def removeEmptyForest : List FSTree → List FSTree
  | [] => []
  | c :: rest =>
      if isEmptyDir c then removeEmptyForest rest
      else removeEmptyDirs c :: removeEmptyForest rest
end

mutual
/-- The paths logged by the removal pass, in bottom-up visit order. -/
def collectEmpty : FPath → FSTree → List FPath
  | _, .file _ => []
  | p, .dir n cs => collectEmptyForest (p ++ [n]) cs ++ (if cs.isEmpty then [p ++ [n]] else [])

/-- collectEmpty over a child list. -/
def collectEmptyForest : FPath → List FSTree → List FPath
  | _, [] => []
  | p, c :: rest => collectEmpty p c ++ collectEmptyForest p rest
end

/-- ReferenceGenerator.remove_empty_directories: consume the typed
confirmation; unless its lowercased form is "y", raise SystemExit before
touching the tree; otherwise remove the empty directories bottom-up
(the root itself included when empty) and return the surviving tree with
the log of removed paths. -/
def remove_empty_directories (confirm : String) (root : FSTree) :
    Except String (Option FSTree × List FPath) :=
  if pyLower confirm ≠ "y" then .error "SystemExit: aborting"
  else
    .ok ((if isEmptyDir root then none else some (removeEmptyDirs root)),
         collectEmpty [] root)

/-! ## Derived notions used by the statements -/

/-- The raw tokens recorded for the children of the directory at path p, in
record order. -/
def childTokens (records : List Record) (p : FPath) : List RefVal :=
  (records.filter (fun r => r.parent = p)).map (fun r => r.refSection)

/-- The token the enumerator records for an entry of the given kind when the
counter holds n (no keyword fired, no level limit): the counter, decorated
by the suffix when its target matches. -/
def expectedTok (cfg : Config) (isDir : Bool) (n : Int) : RefVal :=
  suffix_addition cfg isDir (.num n)

/-- The token sequence recorded for a sibling list when counting starts at r. -/
def expectedTokens (cfg : Config) : Int → List FSTree → List RefVal
  | _, [] => []
  | r, c :: rest => expectedTok cfg c.isDir r :: expectedTokens cfg (r + 1) rest

/-- No two siblings share a name. -/
def distinctNames : List FSTree → Bool
  | [] => true
  | c :: rest => (!rest.any (fun d => d.name = c.name)) && distinctNames rest

mutual
/-- A filesystem-shaped tree: distinct sibling names, recursively. -/
def wfTree : FSTree → Bool
  | .file _ => true
  | .dir _ cs => distinctNames cs && wfForest cs

/-- wfTree over a child list. -/
def wfForest : List FSTree → Bool
  | [] => true
  | c :: rest => wfTree c && wfForest rest
end

/-- The fields of a record that the compose phase reads. -/
def recordCore (r : Record) : FPath × FPath × RefVal × Nat :=
  (r.fullName, r.parent, r.refSection, r.level)

/-- The accession behaviour the specification states for mode "file": the
counter starts at the configured start value, a directory yields the
literal "Dir" marker (prefixed when a prefix is configured) without
advancing the counter, and each file yields the current counter (prefixed
when a prefix is configured) and advances it by one. -/
def accessionFileModeSpec (accPfx : Option String) (delimiter : String) :
    List Bool → Int → List (Option RefVal)
  | [], _ => []
  | true :: rest, c =>
      some (.str (match accPfx with
                  | some p => p ++ delimiter ++ "Dir"
                  | none => "Dir")) :: accessionFileModeSpec accPfx delimiter rest c
  | false :: rest, c =>
      some (match accPfx with
            | some p => RefVal.str (p ++ delimiter ++ intToStr c)
            | none => RefVal.num c) :: accessionFileModeSpec accPfx delimiter rest (c + 1)

/-- The sixteen uppercase hexadecimal characters. -/
def upperHexChars : List Char := "0123456789ABCDEF".data

/-- The directory tree root/(A/(a1.txt, a2.txt), B/(B1/(b1.txt)), rootfile.txt). -/
def c1tree : List FSTree :=
  [FSTree.dir "A" [FSTree.file "a1.txt", FSTree.file "a2.txt"],
   FSTree.dir "B" [FSTree.dir "B1" [FSTree.file "b1.txt"]],
   FSTree.file "rootfile.txt"]

/-- The invariant of a successful enumeration of the sibling list l of the
directory at dirPath with the counter starting at r (no keywords, no level
limit, counter-preserving suffix): the recorded tokens of dirPath's children
are the expected consecutive tokens from r; every produced record lies
strictly inside dirPath with consistent parent, name and level fields; and
every directory record's own children carry the expected consecutive tokens
from 1. -/
structure EnumInv (cfg : Config) (dirPath : FPath) (l : List FSTree) (r : Int)
    (recs : List Record) : Prop where
  tokens : childTokens recs dirPath = expectedTokens cfg r l
  parents : ∀ x ∈ recs, x.parent = dirPath ∨
    ∃ c ∈ l, (dirPath ++ [c.name]) <+: x.parent
  shape : ∀ x ∈ recs, ∃ nm, x.fullName = x.parent ++ [nm]
  levels : ∀ x ∈ recs, x.level = x.parent.length
  topNames : ∀ x ∈ recs, x.parent = dirPath → ∃ c ∈ l, x.fullName = dirPath ++ [c.name]
  subTokens : ∀ x ∈ recs, x.attr = "Dir" →
    ∃ cs : List FSTree, childTokens recs x.fullName = expectedTokens cfg 1 cs
  tokShape : ∀ x ∈ recs, ∃ n : Int, x.refSection = expectedTok cfg (x.attr == "Dir") n

/-- A small concrete tree used to instantiate the general theorems. -/
def c2tree : List FSTree := [FSTree.dir "A" [FSTree.file "x.txt"], FSTree.file "b.txt"]

/-- The records the enumerator produces for c2tree under the defaults. -/
def c2recs : List Record :=
  [{ fullName := ["root"], parent := [], attr := "Dir", level := 0,
     refSection := RefVal.num 0 },
   { fullName := ["root", "A"], parent := ["root"], attr := "Dir", level := 1,
     refSection := RefVal.num 1 },
   { fullName := ["root", "A", "x.txt"], parent := ["root", "A"], attr := "File",
     level := 2, refSection := RefVal.num 1 },
   { fullName := ["root", "b.txt"], parent := ["root"], attr := "File", level := 1,
     refSection := RefVal.num 2 }]

/-- The configuration of the suffix test: suffix "_SFX" applied to files. -/
def c7cfg : Config := { sfx := some "_SFX" }

/-- The tree of the suffix test: a directory first, then two files. -/
def c7tree : List FSTree :=
  [FSTree.dir "D" [FSTree.file "x.txt"], FSTree.file "a.txt", FSTree.file "b.txt"]

/-- The records the enumerator produces for c7tree under c7cfg. -/
def c7recs : List Record :=
  [{ fullName := ["root"], parent := [], attr := "Dir", level := 0,
     refSection := RefVal.num 0 },
   { fullName := ["root", "D"], parent := ["root"], attr := "Dir", level := 1,
     refSection := RefVal.num 1 },
   { fullName := ["root", "D", "x.txt"], parent := ["root", "D"], attr := "File",
     level := 2, refSection := RefVal.str "1_SFX" },
   { fullName := ["root", "a.txt"], parent := ["root"], attr := "File", level := 1,
     refSection := RefVal.str "2_SFX" },
   { fullName := ["root", "b.txt"], parent := ["root"], attr := "File", level := 1,
     refSection := RefVal.str "3_SFX" }]

/-! ## Helper lemmas -/

/-- Char.ofNat returns its argument's code point when it is valid. -/
theorem char_toNat_ofNat_valid (n : Nat) (h : n.isValidChar) : (Char.ofNat n).toNat = n := by
  rw [Char.ofNat, dif_pos h]; rfl

/-- The only characters Char.toLower sends to the letter y are Y and y. -/
theorem charToLower_eq_y (c : Char) (h : c.toLower = 'y') : c = 'Y' ∨ c = 'y' := by
  unfold Char.toLower at h
  have h' : (if 65 ≤ c.toNat ∧ c.toNat ≤ 90 then Char.ofNat (c.toNat + 32) else c) = 'y' := h
  clear h
  split at h'
  · rename_i hc
    have hval : (c.toNat + 32).isValidChar := Or.inl (by omega)
    have h2 := char_toNat_ofNat_valid (c.toNat + 32) hval
    rw [h'] at h2
    have hy : ('y' : Char).toNat = 121 := by decide
    have h89 : c.toNat = 89 := by omega
    have h4 := Char.ofNat_toNat c
    rw [h89] at h4
    left
    rw [← h4]
  · exact Or.inr h'

/-- The only strings whose Python-style lowercase form is "y" are "Y" and "y". -/
theorem pyLower_eq_y_iff (s : String) : pyLower s = "y" ↔ s = "Y" ∨ s = "y" := by
  constructor
  · intro h
    obtain ⟨l⟩ := s
    have hd : l.map Char.toLower = ['y'] := congrArg String.data h
    cases l with
    | nil => simp at hd
    | cons c rest =>
        simp only [List.map_cons, List.cons.injEq] at hd
        obtain ⟨h1, h2⟩ := hd
        have hrest : rest = [] := by
          cases rest with
          | nil => rfl
          | cons d ds => simp at h2
        subst hrest
        rcases charToLower_eq_y c h1 with rfl | rfl
        · left; decide
        · right; decide
  · rintro (rfl | rfl) <;> decide

/-- accession_running_number in mode "file" on a directory. -/
theorem acc_file_dir (accPfx : Option String) (delim : String) (c : Int) :
    accession_running_number (some "file") accPfx delim true c =
      (some (.str (match accPfx with
                   | some p => p ++ delim ++ "Dir"
                   | none => "Dir")), c) := rfl

/-- accession_running_number in mode "file" on a file. -/
theorem acc_file_file (accPfx : Option String) (delim : String) (c : Int) :
    accession_running_number (some "file") accPfx delim false c =
      (match accPfx with
       | some p => (some (RefVal.str (p ++ delim ++ intToStr c)), c + 1)
       | none => (some (RefVal.num c), c + 1)) := rfl

/-- Uppercasing a hexadecimal digit character lands in the uppercase set. -/
theorem hexDigitChar_toUpper_mem (d : Nat) (h : d < 16) :
    (hexDigitChar d).toUpper ∈ upperHexChars := by
  interval_cases d <;> decide

/-! ## Claim theorems (part 1) -/

/-- C1: on the tree root/(A/(a1.txt, a2.txt), B/(B1/(b1.txt)), rootfile.txt)
with all default options (start_ref 1, delimiter "/", no prefix, no suffix,
no keywords, folders-first sort) the final references are exactly
root to 0, A to 1, a1.txt to 1/1, a2.txt to 1/2, B to 2, B1 to 2/1,
b1.txt to 2/1/1 and rootfile.txt to 3. -/
theorem claim_C1_roundtrip_references :
    generate_references {} 32 "root" c1tree =
      .ok [(["root"], "0"),
           (["root", "A"], "1"),
           (["root", "A", "a1.txt"], "1/1"),
           (["root", "A", "a2.txt"], "1/2"),
           (["root", "B"], "2"),
           (["root", "B", "B1"], "2/1"),
           (["root", "B", "B1", "b1.txt"], "2/1/1"),
           (["root", "rootfile.txt"], "3")] := rfl

/-- C3: the claim's guarantee fails in the code.  With a keyword list and a
matching directory the enumerator calls keyword_replace with arguments that
do not fit its signature, so the run aborts with a TypeError as soon as the
override fires; and on the in-code from_json override path, an override that
fires on the first child of a level leaves the pre-override counter at 0,
which the truthiness test `if pref:` treats as absent, so the counter advance
falls back to int() on the non-numeric token and the run aborts. -/
theorem claim_C3_keyword_advance_aborts :
    (init_records { keywordsList := some ["JOHN SMITH"], keywordsMode := some "initialise" }
        32 "root" [FSTree.dir "John Smith" []] =
      .error "TypeError: keyword_replace() got an unexpected keyword argument") ∧
    (init_records { keywordsList := some ["kw.json"], keywordsMode := some "from_json",
                    keywordsJson := some [("JOHN SMITH", "JSM")] } 32 "root"
        [FSTree.dir "John Smith" [], FSTree.dir "Zed" []] =
      .error "ValueError: invalid literal for int()") := ⟨rfl, rfl⟩

/-- C4: the claim's increment fails in the code.  In accession mode "all"
with a configured prefix, the counter increment sits in the unreachable
prefix-is-falsy branch, so two successive entries receive the same code
ACC-1 instead of strictly increasing values. -/
theorem claim_C4_all_mode_counter_never_advances :
    run_accession (some "all") (some "ACC") "-" [false, false] 1 =
      [some (RefVal.str "ACC-1"), some (RefVal.str "ACC-1")] := rfl

/-- C5: in accession mode "file" a run over any sequence of visited entries
equals the specified behaviour: the first file receives the configured start
value, directories receive the literal Dir marker (prefixed with the
accession prefix and delimiter when one is configured) without advancing the
counter, and each file visit advances the counter by one. -/
theorem claim_C5_file_mode_accession (accPfx : Option String) (delim : String)
    (entries : List Bool) (start : Int) :
    run_accession (some "file") accPfx delim entries start =
      accessionFileModeSpec accPfx delim entries start := by
  induction entries generalizing start with
  | nil => rfl
  | cons d rest ih =>
      cases d
      · cases accPfx <;>
          simp [run_accession, acc_file_file, accessionFileModeSpec, ih]
      · cases accPfx <;>
          simp [run_accession, acc_file_dir, accessionFileModeSpec, ih]

/-- C6: the keyword resolver maps the directory name John Smith to JS in
initialise mode with no abbreviation cap, and to JOH in firstletters mode
with abbreviation number 3. -/
theorem claim_C6_keyword_resolver :
    keyword_replace ["John Smith"] "John Smith" "REF" KWMode.initialise none false true = "JS" ∧
      keyword_replace ["John Smith"] "John Smith" "REF" KWMode.firstletters (some 3) false true =
        "JOH" := ⟨rfl, rfl⟩

/-- C9 counterexample: the typed input "y", which is not the typed character
"Y", does not abort: the pruner proceeds and removes the empty directory. -/
theorem claim_C9_counterexample :
    remove_empty_directories "y" (FSTree.dir "root" [FSTree.dir "emptydir" []]) =
        .ok (some (FSTree.dir "root" []), [["root", "emptydir"]]) ∧
      ("y" : String) ≠ "Y" := ⟨rfl, by decide⟩

/-- C9 amended: the pruner deletes nothing until the confirmation is
consumed; the run aborts with SystemExit, before any deletion, exactly when
the input's lowercased form is not "y" — that is, exactly the two inputs
"Y" and "y" allow the bottom-up removal of childless directories to
proceed. -/
theorem claim_C9_amended_confirmation_gate (confirm : String) (root : FSTree) :
    (remove_empty_directories confirm root = .error "SystemExit: aborting" ↔
      confirm ≠ "Y" ∧ confirm ≠ "y") ∧
    (remove_empty_directories confirm root =
        .ok ((if isEmptyDir root then none else some (removeEmptyDirs root)),
             collectEmpty [] root) ↔ (confirm = "Y" ∨ confirm = "y")) := by
  by_cases h : pyLower confirm = "y"
  · have hy := (pyLower_eq_y_iff confirm).1 h
    have hok : remove_empty_directories confirm root =
        .ok ((if isEmptyDir root then none else some (removeEmptyDirs root)),
             collectEmpty [] root) := by
      unfold remove_empty_directories
      rw [if_neg (fun hne => hne h)]
    constructor
    · constructor
      · intro he
        rw [hok] at he
        exact Except.noConfusion he
      · intro hc
        rcases hy with rfl | rfl
        · exact absurd rfl hc.1
        · exact absurd rfl hc.2
    · exact ⟨fun _ => hy, fun _ => hok⟩
  · have hny : ¬(confirm = "Y" ∨ confirm = "y") := fun hc => h ((pyLower_eq_y_iff confirm).2 hc)
    have herr : remove_empty_directories confirm root = .error "SystemExit: aborting" := by
      unfold remove_empty_directories
      rw [if_pos h]
    constructor
    · constructor
      · intro _
        exact ⟨fun hc => hny (Or.inl hc), fun hc => hny (Or.inr hc)⟩
      · intro _
        exact herr
    · constructor
      · intro he
        rw [herr] at he
        exact Except.noConfusion he
      · intro hc
        exact absurd hc hny
  
/-- C10: for every selector containing none of the four recognised algorithm
names the dispatcher silently falls back to SHA-1, and for every selector the
returned digest consists only of uppercase hexadecimal characters. -/
theorem claim_C10_hash_fallback_and_uppercase
    (digestBytes : HashAlg → List Nat → List Nat) (algorithm : String) (content : List Nat) :
    (strContains algorithm "SHA-1" = false → strContains algorithm "MD5" = false →
      strContains algorithm "SHA-256" = false → strContains algorithm "SHA-512" = false →
      hash_generator digestBytes algorithm content =
        pyUpper (bytesToHex (digestBytes HashAlg.sha1 content))) ∧
    (∀ ch ∈ (hash_generator digestBytes algorithm content).data, ch ∈ upperHexChars) := by
  constructor
  · intro h1 h2 h3 h4
    simp [hash_generator, selectAlgorithm, h1, h2, h3, h4]
  · intro ch hch
    have hch' : ch ∈ ((digestBytes (selectAlgorithm algorithm) content).map
        (fun b => [hexDigitChar (b / 16 % 16), hexDigitChar (b % 16)])).flatten.map
          Char.toUpper := hch
    rcases List.mem_map.1 hch' with ⟨c, hc, rfl⟩
    rcases List.mem_flatten.1 hc with ⟨l, hl, hcl⟩
    rcases List.mem_map.1 hl with ⟨b, _, rfl⟩
    rcases List.mem_cons.1 hcl with rfl | hcl'
    · exact hexDigitChar_toUpper_mem _ (Nat.mod_lt _ (by decide))
    · rcases List.mem_cons.1 hcl' with rfl | hcl''
      · exact hexDigitChar_toUpper_mem _ (Nat.mod_lt _ (by decide))
      · simp at hcl''

/-- C10 witness: the unrecognised selector CRC-32 falls back to SHA-1 (here
with the digest family left as the identity on the content bytes), and a
character of the produced digest is an uppercase hexadecimal character. -/
theorem claim_C10_witness :
    (hash_generator (fun _ content => content) "CRC-32" [255, 0] =
        pyUpper (bytesToHex [255, 0])) ∧
      'F' ∈ upperHexChars :=
  ⟨(claim_C10_hash_fallback_and_uppercase (fun _ content => content) "CRC-32" [255, 0]).1
      (by decide) (by decide) (by decide) (by decide),
    (claim_C10_hash_fallback_and_uppercase (fun _ content => content) "CRC-32" [255, 0]).2
      'F' (by decide)⟩

/-- One-step unfolding of reference_loop with positive fuel. -/
theorem reference_loop_succ (cfg : Config) (records : List Record) (fuel : Nat) (ref : RefVal)
    (parent : FPath) (track level : Nat) (newRef : Option String) :
    reference_loop cfg records (fuel + 1) ref parent track level newRef =
      match records.filter (fun r => r.fullName = parent) with
      | [] =>
          if level = 0 then
            .ok (match cfg.pfx with | some p => p | none => refToString ref)
          else
            .ok (match cfg.pfx with
                 | some p => p ++ cfg.delimiter ++ optStr newRef
                 | none => optStr newRef)
      | [r] =>
          reference_loop cfg records fuel ref r.parent (track + 1) level
            (if r.refSection = RefVal.num 0 then
               some (if track = 1 then refToString ref else optStr newRef)
             else if track = 1 then
               some (if ref = RefVal.str "" then refToString r.refSection
                     else refToString r.refSection ++ cfg.delimiter ++ refToString ref)
             else if ref = RefVal.str "" ∧ r.refSection = RefVal.str "" then newRef
             else some (refToString r.refSection ++ cfg.delimiter ++ optStr newRef))
      | _ => .error "ValueError: can only convert an array of size 1 to a Python scalar" := rfl

/-- Filtering by FullName commutes with agreement on the compose-relevant
record fields. -/
theorem filter_core_eq :
    ∀ l₁ l₂ : List Record, l₁.map recordCore = l₂.map recordCore →
      ∀ p : FPath,
        (l₁.filter (fun r => r.fullName = p)).map recordCore =
          (l₂.filter (fun r => r.fullName = p)).map recordCore := by
  intro l₁
  induction l₁ with
  | nil =>
      intro l₂ h p
      cases l₂ with
      | nil => rfl
      | cons b bs => simp at h
  | cons a as ih =>
      intro l₂ h p
      cases l₂ with
      | nil => simp at h
      | cons b bs =>
          simp only [List.map_cons, List.cons.injEq] at h
          obtain ⟨hab, hrest⟩ := h
          have hfn : a.fullName = b.fullName := congrArg (fun q => q.1) hab
          by_cases hp : a.fullName = p
          · have hbp : b.fullName = p := hfn ▸ hp
            simp [List.filter_cons, hp, hbp, hab, ih bs hrest p]
          · have hbp : ¬ b.fullName = p := hfn ▸ hp
            simp [List.filter_cons, hp, hbp, ih bs hrest p]

/-- reference_loop reads only the compose-relevant fields of the record set. -/
theorem reference_loop_core_congr (cfg : Config) :
    ∀ (fuel : Nat) (l₁ l₂ : List Record), l₁.map recordCore = l₂.map recordCore →
      ∀ (ref : RefVal) (parent : FPath) (track level : Nat) (newRef : Option String),
        reference_loop cfg l₁ fuel ref parent track level newRef =
          reference_loop cfg l₂ fuel ref parent track level newRef := by
  intro fuel
  induction fuel with
  | zero => intro l₁ l₂ _ ref parent track level newRef; rfl
  | succ fuel ih =>
      intro l₁ l₂ h ref parent track level newRef
      have hf := filter_core_eq l₁ l₂ h parent
      rw [reference_loop_succ, reference_loop_succ]
      cases h1 : l₁.filter (fun r => r.fullName = parent) with
      | nil =>
          rw [h1] at hf
          simp only [List.map_nil] at hf
          have h2 : l₂.filter (fun r => r.fullName = parent) = [] :=
            List.map_eq_nil_iff.1 hf.symm
          rw [h2]
      | cons r rs =>
          rw [h1] at hf
          cases h2 : l₂.filter (fun r => r.fullName = parent) with
          | nil => rw [h2] at hf; simp at hf
          | cons r' rs' =>
              rw [h2] at hf
              simp only [List.map_cons, List.cons.injEq] at hf
              obtain ⟨hrr, hrs⟩ := hf
              cases rs with
              | nil =>
                  cases rs' with
                  | nil =>
                      have hpar : r.parent = r'.parent := congrArg (fun q => q.2.1) hrr
                      have hsec : r.refSection = r'.refSection :=
                        congrArg (fun q => q.2.2.1) hrr
                      dsimp only
                      rw [hpar, hsec]
                      exact ih l₁ l₂ h ref r'.parent (track + 1) level _
                  | cons _ _ => simp at hrs
              | cons r2 rs2 =>
                  cases rs' with
                  | nil => simp at hrs
                  | cons _ _ => rfl

/-- The compose loop reads only the compose-relevant fields, both of the
lookup set and of the iterated records. -/
theorem composeAux_core_congr (cfg : Config) (fuel : Nat) :
    ∀ L₁ L₂ l₁ l₂ : List Record, L₁.map recordCore = L₂.map recordCore →
      l₁.map recordCore = l₂.map recordCore →
      composeAux cfg fuel L₁ l₁ = composeAux cfg fuel L₂ l₂ := by
  intro L₁ L₂ l₁
  induction l₁ with
  | nil =>
      intro l₂ hL hl
      cases l₂ with
      | nil => rfl
      | cons b bs => simp at hl
  | cons a as ih =>
      intro l₂ hL hl
      cases l₂ with
      | nil => simp at hl
      | cons b bs =>
          simp only [List.map_cons, List.cons.injEq] at hl
          obtain ⟨hab, hrest⟩ := hl
          have hsec : a.refSection = b.refSection := congrArg (fun q => q.2.2.1) hab
          have hpar : a.parent = b.parent := congrArg (fun q => q.2.1) hab
          have hlev : a.level = b.level := congrArg (fun q => q.2.2.2) hab
          have hloop := reference_loop_core_congr cfg fuel L₁ L₂ hL a.refSection a.parent 1
            a.level none
          simp only [composeAux, hsec, hpar, hlev] at hloop ⊢
          rw [hloop, ih bs hL hrest]

/-- A successful compose loop yields one reference per iterated record. -/
theorem composeAux_ok_length (cfg : Config) (fuel : Nat) (L : List Record) :
    ∀ (l : List Record) (refs : List String),
      composeAux cfg fuel L l = .ok refs → refs.length = l.length := by
  intro l
  induction l with
  | nil => intro refs h; cases h; rfl
  | cons a as ih =>
      intro refs h
      simp only [composeAux] at h
      cases h1 : reference_loop cfg L fuel a.refSection a.parent 1 a.level none with
      | error e => rw [h1] at h; exact Except.noConfusion h
      | ok s =>
          rw [h1] at h
          cases h2 : composeAux cfg fuel L as with
          | error e => rw [h2] at h; exact Except.noConfusion h
          | ok ss =>
              rw [h2] at h
              cases h
              simp [ih ss h2]

/-- Writing the Archive_Reference column leaves the compose-relevant fields
unchanged. -/
theorem set_final_core (records : List Record) :
    ∀ refs : List String, refs.length = records.length →
      (set_final records refs).map recordCore = records.map recordCore := by
  induction records with
  | nil => intro refs _; rfl
  | cons a as ih =>
      intro refs hlen
      cases refs with
      | nil => simp at hlen
      | cons b bs =>
          simp only [List.length_cons, Nat.succ.injEq] at hlen
          simp only [set_final, List.zip_cons_cons, List.map_cons]
          have := ih bs hlen
          simp only [set_final] at this
          rw [this]
          rfl

/-- C8: reference composition is idempotent over a fixed record set.  If the
compose phase succeeds and its output is written back into the records, a
second compose run on the updated record set yields exactly the same final
reference strings as the first run. -/
theorem claim_C8_compose_idempotent (cfg : Config) (fuel : Nat)
    (records records' : List Record)
    (h : init_reference_loop cfg fuel records = .ok records') :
    compose cfg fuel records' = compose cfg fuel records := by
  unfold init_reference_loop at h
  cases hc : compose cfg fuel records with
  | error e => rw [hc] at h; exact Except.noConfusion h
  | ok refs =>
      rw [hc] at h
      injection h with h
      subst h
      have hlen : refs.length = records.length :=
        composeAux_ok_length cfg fuel records records refs hc
      have hcore := set_final_core records refs hlen
      unfold compose at hc ⊢
      rw [composeAux_core_congr cfg fuel _ _ _ _ hcore hcore]
      exact hc

/-- C8 witness: a two-record set composed, written back, and recomposed. -/
theorem claim_C8_witness :
    ∃ records', init_reference_loop {} 4
        [{ fullName := ["r"], parent := [], attr := "Dir", level := 0,
           refSection := RefVal.num 0 },
         { fullName := ["r", "a"], parent := ["r"], attr := "File", level := 1,
           refSection := RefVal.num 1 }] = .ok records' ∧
      compose {} 4 records' = compose {} 4
        [{ fullName := ["r"], parent := [], attr := "Dir", level := 0,
           refSection := RefVal.num 0 },
         { fullName := ["r", "a"], parent := ["r"], attr := "File", level := 1,
           refSection := RefVal.num 1 }] :=
  ⟨_, rfl, claim_C8_compose_idempotent {} 4 _ _ rfl⟩

/-! ## Sorting, filtering and well-formedness lemmas -/

/-- Stable insertion produces a permutation of consing. -/
theorem insertEntry_perm (cfg : Config) (x : FSTree) :
    ∀ l : List FSTree, List.Perm (insertEntry cfg x l) (x :: l) := by
  intro l
  induction l with
  | nil => exact List.Perm.refl _
  | cons y ys ih =>
      unfold insertEntry
      split
      · exact List.Perm.refl _
      · exact (List.Perm.cons y ih).trans (List.Perm.swap x y ys)

/-- The insertion sort permutes its input. -/
theorem sortEntries_perm (cfg : Config) :
    ∀ l : List FSTree, List.Perm (sortEntries cfg l) l := by
  intro l
  induction l with
  | nil => exact List.Perm.refl _
  | cons x xs ih =>
      exact (insertEntry_perm cfg x (sortEntries cfg xs)).trans (List.Perm.cons x ih)

/-- Everything filter_directories keeps comes from the original child list. -/
theorem mem_filter_directories (cfg : Config) (cs : List FSTree) (x : FSTree)
    (h : x ∈ filter_directories cfg cs) : x ∈ cs := by
  unfold filter_directories at h
  split at h
  · exact List.mem_of_mem_filter ((sortEntries_perm cfg _).mem_iff.1 h)
  · exact List.mem_of_mem_filter ((sortEntries_perm cfg _).mem_iff.1 h)

/-- distinctNames is name-nodup. -/
theorem distinctNames_iff (l : List FSTree) :
    distinctNames l = true ↔ (l.map FSTree.name).Nodup := by
  induction l with
  | nil => simp [distinctNames]
  | cons c rest ih =>
      simp only [distinctNames, Bool.and_eq_true, Bool.not_eq_true', List.any_eq_false,
        List.map_cons, List.nodup_cons, ih]
      constructor
      · rintro ⟨h1, h2⟩
        refine ⟨fun hm => ?_, h2⟩
        rcases List.mem_map.1 hm with ⟨d, hd, hdn⟩
        exact absurd (decide_eq_true hdn) (by simpa using h1 d hd)
      · rintro ⟨h1, h2⟩
        refine ⟨fun d hd => ?_, h2⟩
        by_cases hdn : d.name = c.name
        · exact absurd (List.mem_map.2 ⟨d, hd, hdn⟩) h1
        · simpa using hdn
  
/-- wfForest is membership-wise wfTree. -/
theorem wfForest_iff (l : List FSTree) :
    wfForest l = true ↔ ∀ c ∈ l, wfTree c = true := by
  induction l with
  | nil => simp [wfForest]
  | cons c rest ih =>
      simp only [wfForest, Bool.and_eq_true, ih, List.mem_cons]
      constructor
      · rintro ⟨h1, h2⟩ d (rfl | hd)
        · exact h1
        · exact h2 d hd
      · intro h
        exact ⟨h c (Or.inl rfl), fun d hd => h d (Or.inr hd)⟩

/-- Sorting a filtered child list keeps the names nodup. -/
theorem nodup_names_filter_sort (cfg : Config) (p : FSTree → Bool) (cs : List FSTree)
    (h : (cs.map FSTree.name).Nodup) :
    ((sortEntries cfg (cs.filter p)).map FSTree.name).Nodup := by
  have hsub : List.Sublist ((cs.filter p).map FSTree.name) (cs.map FSTree.name) :=
    (List.filter_sublist cs).map FSTree.name
  have hnd : ((cs.filter p).map FSTree.name).Nodup := List.Nodup.sublist hsub h
  have hperm : List.Perm ((sortEntries cfg (cs.filter p)).map FSTree.name)
      ((cs.filter p).map FSTree.name) :=
    List.Perm.map FSTree.name (sortEntries_perm cfg (cs.filter p))
  exact hperm.nodup_iff.2 hnd

/-- filter_directories keeps sibling names distinct. -/
theorem distinctNames_filter_directories (cfg : Config) (cs : List FSTree)
    (h : distinctNames cs = true) : distinctNames (filter_directories cfg cs) = true := by
  rw [distinctNames_iff] at h ⊢
  unfold filter_directories
  split
  · exact nodup_names_filter_sort cfg _ cs h
  · exact nodup_names_filter_sort cfg _ cs h

/-- filter_directories keeps the forest well-formed. -/
theorem wfForest_filter_directories (cfg : Config) (cs : List FSTree)
    (h : wfForest cs = true) : wfForest (filter_directories cfg cs) = true := by
  rw [wfForest_iff] at h ⊢
  intro c hc
  exact h c (mem_filter_directories cfg cs c hc)

/-! ## Path and childTokens lemmas -/

/-- A path extending p ++ [a] holds a at index p.length. -/
theorem snoc_prefix_getElem {p : FPath} {a : String} {u : FPath}
    (h : (p ++ [a]) <+: u) : u[p.length]? = some a := by
  obtain ⟨t, ht⟩ := h
  subst ht
  rw [List.append_assoc, List.getElem?_append_right (Nat.le_refl p.length)]
  simp

/-- Two paths lying under differently named children of the same directory
differ. -/
theorem snoc_prefix_ne {p : FPath} {a b : String} {u v : FPath}
    (hu : (p ++ [a]) <+: u) (hv : (p ++ [b]) <+: v) (hab : a ≠ b) : u ≠ v := by
  intro huv
  subst huv
  have h1 := snoc_prefix_getElem hu
  have h2 := snoc_prefix_getElem hv
  rw [h1] at h2
  exact hab (Option.some.injEq _ _ ▸ h2)

/-- A path under a child of p is strictly longer than p. -/
theorem snoc_prefix_length {p : FPath} {a : String} {u : FPath}
    (h : (p ++ [a]) <+: u) : p.length < u.length := by
  have := h.length_le
  simp only [List.length_append, List.length_cons, List.length_nil] at this
  omega

/-- A strictly longer path is different. -/
theorem ne_of_snoc_pre {p : FPath} {a : String} {u : FPath}
    (h : (p ++ [a]) <+: u) : u ≠ p := by
  intro hpu
  have := snoc_prefix_length h
  rw [hpu] at this
  omega

/-- childTokens distributes over cons. -/
theorem childTokens_cons (x : Record) (recs : List Record) (p : FPath) :
    childTokens (x :: recs) p =
      (if x.parent = p then [x.refSection] else []) ++ childTokens recs p := by
  unfold childTokens
  by_cases h : x.parent = p
  · simp [List.filter_cons, h]
  · simp [List.filter_cons, h]

/-- childTokens distributes over append. -/
theorem childTokens_append (l₁ l₂ : List Record) (p : FPath) :
    childTokens (l₁ ++ l₂) p = childTokens l₁ p ++ childTokens l₂ p := by
  unfold childTokens
  rw [List.filter_append, List.map_append]

/-- childTokens vanishes when no record is parented at p. -/
theorem childTokens_eq_nil {recs : List Record} {p : FPath}
    (h : ∀ x ∈ recs, x.parent ≠ p) : childTokens recs p = [] := by
  unfold childTokens
  rw [List.filter_eq_nil_iff.2 (fun x hx => by simpa using h x hx)]
  rfl

/-! ## The clean child step -/

/-- With no suffix configured the decoration steps are the identity. -/
theorem suffix_addition_none {cfg : Config} (h : cfg.sfx = none) (d : Bool) (r : RefVal) :
    suffix_addition cfg d r = r := by
  unfold suffix_addition
  rw [h]

/-- With no suffix configured the removal step is the identity. -/
theorem suffix_subtraction_none {cfg : Config} (h : cfg.sfx = none) (d : Bool) (r : RefVal) :
    suffix_subtraction cfg d r = r := by
  unfold suffix_subtraction
  rw [h]

/-- A configuration whose suffix decoration never disturbs the numeric
counter: stripping the decorated counter and coercing with int() recovers
the counter. -/
def SuffixClean (cfg : Config) : Prop :=
  ∀ (d : Bool) (n : Int),
    pyInt? (suffix_subtraction cfg d (suffix_addition cfg d (.num n))) = some n

/-- The no-suffix configuration is counter-preserving. -/
theorem suffixClean_none {cfg : Config} (h : cfg.sfx = none) : SuffixClean cfg := by
  intro d n
  rw [suffix_addition_none h, suffix_subtraction_none h]
  rfl

/-- Without keywords and without a level limit, one child step records the
suffix-decorated counter and advances the counter by one. -/
theorem childStep_clean {cfg : Config} (hkw : cfg.keywordsList = none)
    (hlim : cfg.levelLimit = none) (hsfx : SuffixClean cfg)
    (d : Bool) (nm : String) (lvl : Nat) (r : Int) :
    childStep cfg d nm lvl r none = .ok (expectedTok cfg d r, r + 1, none) := by
  unfold childStep keywordStep
  rw [hkw, hlim]
  simp only [expectedTok]
  rw [hsfx d r]

/-! ## The enumeration invariant -/

/-- distinctNames, destructed at a cons. -/
theorem distinctNames_cons {c : FSTree} {rest : List FSTree}
    (h : distinctNames (c :: rest) = true) :
    (∀ d ∈ rest, d.name ≠ c.name) ∧ distinctNames rest = true := by
  simp only [distinctNames, Bool.and_eq_true, Bool.not_eq_true', List.any_eq_false] at h
  exact ⟨fun d hd => by simpa using h.1 d hd, h.2⟩

/-- wfForest, destructed at a cons. -/
theorem wfForest_cons {c : FSTree} {rest : List FSTree}
    (h : wfForest (c :: rest) = true) : wfTree c = true ∧ wfForest rest = true := by
  simpa only [wfForest, Bool.and_eq_true] using h

/-- wfTree, destructed at a directory. -/
theorem wfTree_dir {nm : String} {gcs : List FSTree}
    (h : wfTree (FSTree.dir nm gcs) = true) :
    distinctNames gcs = true ∧ wfForest gcs = true := by
  simpa only [wfTree, Bool.and_eq_true] using h

/-- The invariant of the empty enumeration. -/
theorem enumInv_nil (cfg : Config) (dirPath : FPath) (r : Int) :
    EnumInv cfg dirPath [] r [] where
  tokens := rfl
  parents := fun x hx => absurd hx (List.not_mem_nil x)
  shape := fun x hx => absurd hx (List.not_mem_nil x)
  levels := fun x hx => absurd hx (List.not_mem_nil x)
  topNames := fun x hx => absurd hx (List.not_mem_nil x)
  subTokens := fun x hx => absurd hx (List.not_mem_nil x)
  tokShape := fun x hx => absurd hx (List.not_mem_nil x)

/-- Combining one child's record, its subtree's records and the later
siblings' records preserves the enumeration invariant. -/
theorem enumInv_cons (cfg : Config) {dirPath : FPath} {c : FSTree} {rest : List FSTree}
    {r : Int} {sub tail : List Record} {csSub : List FSTree}
    (hname : ∀ d ∈ rest, d.name ≠ c.name)
    (invS : EnumInv cfg (dirPath ++ [c.name]) csSub 1 sub)
    (invT : EnumInv cfg dirPath rest (r + 1) tail) :
    EnumInv cfg dirPath (c :: rest) r
      ({ fullName := dirPath ++ [c.name], parent := dirPath,
         attr := if c.isDir then "Dir" else "File", level := dirPath.length,
         refSection := expectedTok cfg c.isDir r } :: (sub ++ tail)) := by
  have hsubP : ∀ x ∈ sub, (dirPath ++ [c.name]) <+: x.parent := by
    intro x hx
    rcases invS.parents x hx with hEq | ⟨c', _, hpre⟩
    · rw [hEq]
    · exact (List.prefix_append _ [c'.name]).trans hpre
  have hsubNe : ∀ x ∈ sub, x.parent ≠ dirPath := fun x hx =>
    (ne_of_snoc_pre ((List.prefix_refl _).trans (hsubP x hx)))
  have htailNeQ : ∀ {q : FPath}, (dirPath ++ [c.name]) <+: q →
      ∀ x ∈ tail, x.parent ≠ q := by
    intro q hq x hx
    rcases invT.parents x hx with hp | ⟨c', hc', hpre⟩
    · rw [hp]; exact (ne_of_snoc_pre hq).symm
    · exact snoc_prefix_ne hpre hq (hname c' hc')
  refine ⟨?_, ?_, ?_, ?_, ?_, ?_, ?_⟩
  · -- tokens
    rw [childTokens_cons, childTokens_append, childTokens_eq_nil hsubNe, invT.tokens]
    simp [expectedTokens]
  · -- parents
    intro x hx
    rcases List.mem_cons.1 hx with rfl | hx'
    · exact Or.inl rfl
    rcases List.mem_append.1 hx' with hxs | hxt
    · exact Or.inr ⟨c, List.mem_cons_self c rest, hsubP x hxs⟩
    · rcases invT.parents x hxt with hp | ⟨c', hc', hpre⟩
      · exact Or.inl hp
      · exact Or.inr ⟨c', List.mem_cons_of_mem c hc', hpre⟩
  · -- shape
    intro x hx
    rcases List.mem_cons.1 hx with rfl | hx'
    · exact ⟨c.name, rfl⟩
    rcases List.mem_append.1 hx' with hxs | hxt
    · exact invS.shape x hxs
    · exact invT.shape x hxt
  · -- levels
    intro x hx
    rcases List.mem_cons.1 hx with rfl | hx'
    · rfl
    rcases List.mem_append.1 hx' with hxs | hxt
    · exact invS.levels x hxs
    · exact invT.levels x hxt
  · -- topNames
    intro x hx hpar
    rcases List.mem_cons.1 hx with rfl | hx'
    · exact ⟨c, List.mem_cons_self c rest, rfl⟩
    rcases List.mem_append.1 hx' with hxs | hxt
    · exact absurd hpar (hsubNe x hxs)
    · rcases invT.topNames x hxt hpar with ⟨c', hc', hfn⟩
      exact ⟨c', List.mem_cons_of_mem c hc', hfn⟩
  · -- subTokens
    intro x hx hattr
    rcases List.mem_cons.1 hx with rfl | hx'
    · -- the head record itself
      by_cases hcd : c.isDir
      · refine ⟨csSub, ?_⟩
        have hq : (dirPath ++ [c.name]) <+: (dirPath ++ [c.name]) := List.prefix_refl _
        rw [childTokens_cons, childTokens_append, invS.tokens,
          childTokens_eq_nil (htailNeQ hq)]
        have hne : ¬ (dirPath = dirPath ++ [c.name]) := (ne_of_snoc_pre hq).symm
        simp [hne]
      · rw [if_neg hcd] at hattr
        simp at hattr
    rcases List.mem_append.1 hx' with hxs | hxt
    · -- a record of the subtree
      obtain ⟨cs', hcs'⟩ := invS.subTokens x hxs hattr
      obtain ⟨nm', hnm'⟩ := invS.shape x hxs
      have hq : (dirPath ++ [c.name]) <+: x.fullName := by
        rw [hnm']
        exact (hsubP x hxs).trans (List.prefix_append _ [nm'])
      refine ⟨cs', ?_⟩
      rw [childTokens_cons, childTokens_append, hcs',
        childTokens_eq_nil (htailNeQ hq)]
      have hne : ¬ (dirPath = x.fullName) := (ne_of_snoc_pre hq).symm
      simp [hne]
    · -- a record of a later sibling's subtree
      obtain ⟨cs', hcs'⟩ := invT.subTokens x hxt hattr
      have hq : ∃ cname, cname ≠ c.name ∧ (dirPath ++ [cname]) <+: x.fullName := by
        rcases invT.parents x hxt with hp | ⟨c', hc', hpre⟩
        · obtain ⟨c'', hc'', hfn⟩ := invT.topNames x hxt hp
          exact ⟨c''.name, hname c'' hc'', by rw [hfn]⟩
        · obtain ⟨nm', hnm'⟩ := invT.shape x hxt
          exact ⟨c'.name, hname c' hc', by rw [hnm']; exact hpre.trans (List.prefix_append _ [nm'])⟩
      obtain ⟨cname, hcname, hq⟩ := hq
      refine ⟨cs', ?_⟩
      rw [childTokens_cons, childTokens_append, hcs',
        childTokens_eq_nil (fun x' hx'' => snoc_prefix_ne (hsubP x' hx'') hq (fun h => hcname h.symm))]
      have hne : ¬ (dirPath = x.fullName) := (ne_of_snoc_pre hq).symm
      simp [hne]
  · -- tokShape
    intro x hx
    rcases List.mem_cons.1 hx with rfl | hx'
    · refine ⟨r, ?_⟩
      cases hc : c.isDir <;> simp [hc]
    rcases List.mem_append.1 hx' with hxs | hxt
    · exact invS.tokShape x hxs
    · exact invT.tokShape x hxt

/-- A successful enumeration without keywords and without a level limit,
under a counter-preserving suffix configuration and a well-formed sibling
forest, satisfies the enumeration invariant. -/
theorem enum_invariant (cfg : Config) (hkw : cfg.keywordsList = none)
    (hlim : cfg.levelLimit = none) (hsfx : SuffixClean cfg) :
    ∀ (fuel : Nat) (dirPath : FPath) (l : List FSTree) (r : Int) (recs : List Record),
      distinctNames l = true → wfForest l = true →
      enumChildren cfg fuel dirPath l r none = .ok recs →
      EnumInv cfg dirPath l r recs := by
  intro fuel
  induction fuel with
  | zero =>
      intro dirPath l r recs hdn hwf h
      cases l with
      | nil =>
          simp only [enumChildren] at h
          injection h with h
          subst h
          exact enumInv_nil cfg dirPath r
      | cons c cs =>
          simp only [enumChildren] at h
          exact Except.noConfusion h
  | succ fuel ih =>
      intro dirPath l r recs hdn hwf h
      cases l with
      | nil =>
          simp only [enumChildren] at h
          injection h with h
          subst h
          exact enumInv_nil cfg dirPath r
      | cons c rest =>
          obtain ⟨hname, hdn'⟩ := distinctNames_cons hdn
          obtain ⟨hwfc, hwf'⟩ := wfForest_cons hwf
          simp only [enumChildren] at h
          rw [childStep_clean hkw hlim hsfx] at h
          cases c with
          | file nm =>
              simp only [FSTree.isDir, FSTree.name, Bool.false_eq_true, if_false] at h
              cases htail : enumChildren cfg fuel dirPath rest (r + 1) none with
              | error e => rw [htail] at h; simp at h
              | ok tail =>
                  rw [htail] at h
                  simp only [List.nil_append] at h
                  injection h with h
                  subst h
                  have invT := ih dirPath rest (r + 1) tail hdn' hwf' htail
                  have invS := enumInv_nil cfg (dirPath ++ [nm]) 1
                  have := enumInv_cons cfg (c := FSTree.file nm)
                    (fun d hd => hname d hd) invS invT
                  simpa [FSTree.isDir, FSTree.name] using this
          | dir nm gcs =>
              simp only [FSTree.isDir, FSTree.name, if_true] at h
              obtain ⟨hgdn, hgwf⟩ := wfTree_dir hwfc
              cases hsub : enumChildren cfg fuel (dirPath ++ [nm])
                  (filter_directories cfg gcs) 1 none with
              | error e => rw [hsub] at h; simp at h
              | ok sub =>
                  rw [hsub] at h
                  cases htail : enumChildren cfg fuel dirPath rest (r + 1) none with
                  | error e => rw [htail] at h; simp at h
                  | ok tail =>
                      rw [htail] at h
                      injection h with h
                      subst h
                      have invT := ih dirPath rest (r + 1) tail hdn' hwf' htail
                      have invS := ih (dirPath ++ [nm]) (filter_directories cfg gcs) 1 sub
                        (distinctNames_filter_directories cfg gcs hgdn)
                        (wfForest_filter_directories cfg gcs hgwf) hsub
                      have := enumInv_cons cfg (c := FSTree.dir nm gcs)
                        (fun d hd => hname d hd) invS invT
                      simpa [FSTree.isDir, FSTree.name] using this

/-- Without a suffix the expected token sequence is the consecutive integers
from the start value. -/
theorem expectedTokens_none {cfg : Config} (hs : cfg.sfx = none) :
    ∀ (l : List FSTree) (r : Int),
      expectedTokens cfg r l = (List.range l.length).map (fun i : Nat => RefVal.num (r + (i : Int))) := by
  intro l
  induction l with
  | nil => intro r; rfl
  | cons c rest ih =>
      intro r
      simp only [expectedTokens, expectedTok, suffix_addition_none hs, List.length_cons]
      rw [List.range_succ_eq_map]
      simp only [List.map_cons, List.map_map, ih (r + 1)]
      congr 1
      · norm_num
      · refine List.map_congr_left (fun a _ => ?_)
        simp only [Function.comp_apply]
        congr 1
        push_cast
        ring

/-- C2: for every enumerated directory, absent keyword and suffix overrides
(and with no level limit configured), the raw tokens recorded for its
children form a contiguous integer sequence whose start is the configured
start_ref for the root's immediate children (level 0 directory) and 1 for
every nested directory, irrespective of counters used elsewhere. -/
theorem claim_C2_sibling_tokens_contiguous (cfg : Config) (fuel : Nat) (rootName : String)
    (children : List FSTree) (recs : List Record)
    (hkw : cfg.keywordsList = none) (hs : cfg.sfx = none) (hlim : cfg.levelLimit = none)
    (hdn : distinctNames children = true) (hwf : wfForest children = true)
    (h : init_records cfg fuel rootName children = .ok recs) :
    ∀ x ∈ recs, x.attr = "Dir" →
      ∃ k, childTokens recs x.fullName =
        (List.range k).map (fun i : Nat =>
          RefVal.num ((if x.level = 0 then cfg.startRef else 1) + (i : Int))) := by
  unfold init_records list_directories at h
  cases hb : enumChildren cfg fuel [rootName] (filter_directories cfg children)
      cfg.startRef none with
  | error e => rw [hb] at h; exact Except.noConfusion h
  | ok body =>
      rw [hb] at h
      injection h with h
      subst h
      have inv := enum_invariant cfg hkw hlim (suffixClean_none hs) fuel [rootName]
        (filter_directories cfg children) cfg.startRef body
        (distinctNames_filter_directories cfg children hdn)
        (wfForest_filter_directories cfg children hwf) hb
      intro x hx hattr
      rcases List.mem_cons.1 hx with rfl | hxb
      · refine ⟨(filter_directories cfg children).length, ?_⟩
        rw [childTokens_cons]
        simp [inv.tokens, expectedTokens_none hs]
      · have hlev : x.level = x.parent.length := inv.levels x hxb
        have hlen1 : 1 ≤ x.parent.length := by
          rcases inv.parents x hxb with hp | ⟨c', _, hpre⟩
          · rw [hp]; simp
          · have := snoc_prefix_length hpre
            simp only [List.length_cons, List.length_nil] at this
            omega
        have hlev0 : ¬ x.level = 0 := by omega
        obtain ⟨cs', hcs'⟩ := inv.subTokens x hxb hattr
        obtain ⟨nm', hnm'⟩ := inv.shape x hxb
        refine ⟨cs'.length, ?_⟩
        rw [childTokens_cons]
        have hne : ¬ (([] : FPath) = x.fullName) := by
          rw [hnm']
          simp
        simp [hne, hcs', expectedTokens_none hs, hlev0]

/-- C2 witness: a concrete two-level tree enumerated with the default
configuration; every directory record's child tokens are a contiguous
integer range from its level's start value. -/
theorem claim_C2_witness :
    init_records {} 8 "root" c2tree = .ok c2recs ∧
      ∀ x ∈ c2recs, x.attr = "Dir" →
        ∃ k, childTokens c2recs x.fullName =
          (List.range k).map (fun i : Nat =>
            RefVal.num ((if x.level = 0 then ({} : Config).startRef else 1) + (i : Int))) :=
  ⟨rfl, claim_C2_sibling_tokens_contiguous {} 8 "root" c2tree c2recs rfl rfl rfl rfl rfl rfl⟩

/-! ## Decimal round-trip and suffix stripping -/

/-- Rendered decimal digits are digit characters. -/
theorem digitChar_isDigit {d : Nat} (h : d < 10) : (digitChar d).isDigit = true := by
  interval_cases d <;> decide

/-- Rendering then reading a decimal digit is the identity. -/
theorem digitVal_digitChar {d : Nat} (h : d < 10) : digitVal (digitChar d) = d := by
  interval_cases d <;> decide

/-- Rendering zero yields no digits at any fuel. -/
theorem natToStrAux_zero : ∀ fuel, natToStrAux fuel 0 = [] := by
  intro fuel
  cases fuel with
  | zero => rfl
  | succ f => simp [natToStrAux]

/-- parseDigits over a snoc. -/
theorem parseDigits_append (l : List Char) (c : Char) :
    parseDigits (l ++ [c]) = parseDigits l * 10 + digitVal c := by
  unfold parseDigits
  rw [List.foldl_append]
  rfl

/-- The decimal rendering of a positive Nat is a nonempty digit string that
parses back to the same Nat. -/
theorem natToStrAux_spec :
    ∀ (fuel n : Nat), 0 < n → n ≤ fuel →
      natToStrAux fuel n ≠ [] ∧ (∀ c ∈ natToStrAux fuel n, c.isDigit = true) ∧
        parseDigits (natToStrAux fuel n) = n := by
  intro fuel
  induction fuel with
  | zero => intro n h1 h2; omega
  | succ fuel ih =>
      intro n h1 h2
      simp only [natToStrAux, if_neg (by omega : ¬ n = 0)]
      by_cases h10 : n / 10 = 0
      · have hn10 : n < 10 := by omega
        rw [h10, natToStrAux_zero]
        simp only [List.nil_append]
        refine ⟨by simp, ?_, ?_⟩
        · intro c hc
          simp only [List.mem_singleton] at hc
          subst hc
          exact digitChar_isDigit (Nat.mod_lt _ (by norm_num))
        · have : parseDigits [digitChar (n % 10)] = digitVal (digitChar (n % 10)) := by
            simp [parseDigits]
          rw [this, digitVal_digitChar (Nat.mod_lt _ (by norm_num))]
          omega
      · have hlt : n / 10 < n := Nat.div_lt_self h1 (by norm_num)
        obtain ⟨hne, hdig, hval⟩ := ih (n / 10) (Nat.pos_of_ne_zero h10) (by omega)
        refine ⟨by simp, ?_, ?_⟩
        · intro c hc
          rcases List.mem_append.1 hc with hc1 | hc2
          · exact hdig c hc1
          · simp only [List.mem_singleton] at hc2
            subst hc2
            exact digitChar_isDigit (Nat.mod_lt _ (by norm_num))
        · rw [parseDigits_append, hval, digitVal_digitChar (Nat.mod_lt _ (by norm_num))]
          omega

/-- String.mk of the character data is the string itself. -/
theorem string_eta (s : String) : (⟨s.data⟩ : String) = s := rfl

/-- Python int(str(i)) = i for the engine's decimal printer and parser. -/
theorem strToInt?_intToStr (n : Int) : strToInt? (intToStr n) = some n := by
  rcases lt_trichotomy n 0 with hneg | hz | hpos
  · have hm : 0 < n.natAbs := by omega
    unfold intToStr
    rw [if_pos hneg]
    unfold natToStr
    rw [if_neg (by omega : ¬ n.natAbs = 0)]
    obtain ⟨hne, hdig, hval⟩ := natToStrAux_spec (n.natAbs + 1) n.natAbs hm (by omega)
    cases hl : natToStrAux (n.natAbs + 1) n.natAbs with
    | nil => exact absurd hl hne
    | cons c cs =>
        rw [hl] at hdig hval
        have hdata : ("-" ++ (⟨c :: cs⟩ : String)) = (⟨'-' :: c :: cs⟩ : String) := rfl
        rw [hdata]
        show (if ('-' : Char) = '-' then
                if (c :: cs) ≠ [] ∧ (c :: cs).all Char.isDigit then
                  some (-(parseDigits (c :: cs) : Int))
                else none
              else if (('-' : Char) :: c :: cs).all Char.isDigit then
                some (parseDigits (('-' : Char) :: c :: cs) : Int)
              else none) = some n
        rw [if_pos rfl, if_pos ⟨by simp, List.all_eq_true.2 (fun x hx => hdig x hx)⟩, hval]
        exact congrArg some (by omega)
  · subst hz
    decide
  · have hm : 0 < n.natAbs := by omega
    unfold intToStr
    rw [if_neg (by omega : ¬ n < 0)]
    unfold natToStr
    rw [if_neg (by omega : ¬ n.natAbs = 0)]
    obtain ⟨hne, hdig, hval⟩ := natToStrAux_spec (n.natAbs + 1) n.natAbs hm (by omega)
    cases hl : natToStrAux (n.natAbs + 1) n.natAbs with
    | nil => exact absurd hl hne
    | cons c cs =>
        rw [hl] at hdig hval
        have hcd : c.isDigit = true := hdig c (List.mem_cons_self c cs)
        have hcne : ¬ c = '-' := by
          intro he
          rw [he] at hcd
          exact absurd hcd (by decide)
        show (if c = '-' then
                if cs ≠ [] ∧ cs.all Char.isDigit then some (-(parseDigits cs : Int)) else none
              else if ((c :: cs)).all Char.isDigit then some (parseDigits (c :: cs) : Int)
              else none) = some n
        rw [if_neg hcne, if_pos (List.all_eq_true.2 (fun x hx => hdig x hx))]
        rw [hval]
        exact congrArg some (Int.natAbs_of_nonneg (le_of_lt hpos))

/-- Removing "_SFX" from an underscore-free string followed by "_SFX"
recovers the string. -/
theorem replaceAllAux_strip_sfx :
    ∀ l : List Char, (∀ c ∈ l, c ≠ '_') → ∀ fuel : Nat, l.length + 4 ≤ fuel →
      replaceAllAux ("_SFX".data) fuel (l ++ "_SFX".data) = l := by
  have hsd : ("_SFX".data : List Char) = '_' :: 'S' :: 'F' :: 'X' :: [] := rfl
  intro l
  induction l with
  | nil =>
      intro _ fuel hf
      cases fuel with
      | zero => omega
      | succ f =>
          rw [List.nil_append, hsd]
          simp only [replaceAllAux,
            if_pos (⟨by decide, by decide⟩ :
              ('_' :: 'S' :: 'F' :: 'X' :: [] ≠ []) ∧
                listIsPrefix ('_' :: 'S' :: 'F' :: 'X' :: [])
                  ('_' :: 'S' :: 'F' :: 'X' :: []) = true)]
          cases f <;> rfl
  | cons c cs ih =>
      intro hno fuel hf
      cases fuel with
      | zero => simp only [List.length_cons] at hf; omega
      | succ f =>
          have hc : ('_' : Char) ≠ c := fun h => hno c (List.mem_cons_self c cs) h.symm
          have hbeq : ('_' == c) = false := beq_eq_false_iff_ne.2 hc
          rw [hsd, List.cons_append]
          simp only [replaceAllAux]
          rw [if_neg (fun hand => absurd hand.2 (by simp [listIsPrefix, hbeq]))]
          refine congrArg (c :: ·) ?_
          have h2 := ih (fun d hd => hno d (List.mem_cons_of_mem c hd)) f
            (by simp only [List.length_cons] at hf; omega)
          rw [hsd] at h2
          exact h2

/-- str.replace of the "_SFX" suffix on an underscore-free base string. -/
theorem pyReplace_strip_sfx (l : List Char) (hno : ∀ c ∈ l, c ≠ '_') :
    pyReplace ⟨l ++ "_SFX".data⟩ "_SFX" = (⟨l⟩ : String) := by
  unfold pyReplace
  refine congrArg String.mk ?_
  refine replaceAllAux_strip_sfx l hno _ ?_
  simp

/-- The decimal rendering of an int contains no underscore. -/
theorem intToStr_no_underscore (n : Int) : ∀ c ∈ (intToStr n).data, c ≠ '_' := by
  have hdig : ∀ (m : Nat) (c : Char), c ∈ (natToStr m).data → c ≠ '_' := by
    intro m c hc
    unfold natToStr at hc
    by_cases hm : m = 0
    · rw [if_pos hm] at hc
      simp only [show ("0" : String).data = ['0'] from rfl, List.mem_singleton] at hc
      subst hc
      decide
    · rw [if_neg hm] at hc
      obtain ⟨_, hall, _⟩ := natToStrAux_spec (m + 1) m (by omega) (by omega)
      have := hall c hc
      intro he
      rw [he] at this
      exact absurd this (by decide)
  intro c hc
  unfold intToStr at hc
  by_cases hn : n < 0
  · rw [if_pos hn] at hc
    have hd : ("-" ++ natToStr n.natAbs).data = '-' :: (natToStr n.natAbs).data := by
      cases hs : natToStr n.natAbs with
      | mk l => rfl
    rw [hd] at hc
    rcases List.mem_cons.1 hc with rfl | hc'
    · decide
    · exact hdig n.natAbs c hc'
  · rw [if_neg hn] at hc
    exact hdig n.natAbs c hc

/-- The suffix "_SFX" applied to files only preserves the numeric counter. -/
theorem suffixClean_sfx {cfg : Config} (hs : cfg.sfx = some "_SFX")
    (hopt : cfg.suffixOptions = "apply_to_files") : SuffixClean cfg := by
  intro d n
  unfold suffix_addition suffix_subtraction
  rw [hs]
  dsimp only
  cases d with
  | false =>
      have happ : suffixApplies cfg false = true := by
        simp [suffixApplies, hopt]
      rw [if_pos happ, if_pos happ]
      show strToInt? (pyReplace (refToString (.num n) ++ "_SFX") "_SFX") = some n
      have hd : (refToString (.num n) ++ ("_SFX" : String)) =
          ⟨(intToStr n).data ++ "_SFX".data⟩ := by
        show (intToStr n ++ ("_SFX" : String)) = _
        cases hs' : intToStr n with
        | mk l => rfl
      rw [hd, pyReplace_strip_sfx _ (intToStr_no_underscore n), string_eta]
      exact strToInt?_intToStr n
  | true =>
      have happ : suffixApplies cfg true = false := by
        simp [suffixApplies, hopt]
      rw [if_neg (by rw [happ]; exact Bool.false_ne_true), if_neg (by rw [happ]; exact Bool.false_ne_true)]
      rfl

/-- The token recorded for a file under the "_SFX"-on-files configuration. -/
theorem expectedTok_sfx_file {cfg : Config} (hs : cfg.sfx = some "_SFX")
    (hopt : cfg.suffixOptions = "apply_to_files") (n : Int) :
    expectedTok cfg false n = .str (intToStr n ++ "_SFX") := by
  unfold expectedTok suffix_addition
  rw [hs]
  dsimp only
  rw [if_pos (by simp [suffixApplies, hopt] : suffixApplies cfg false = true)]
  rfl

/-- The token recorded for a directory under the "_SFX"-on-files
configuration. -/
theorem expectedTok_sfx_dir {cfg : Config} (hs : cfg.sfx = some "_SFX")
    (hopt : cfg.suffixOptions = "apply_to_files") (n : Int) :
    expectedTok cfg true n = .num n := by
  unfold expectedTok suffix_addition
  rw [hs]
  dsimp only
  rw [if_neg (by rw [show suffixApplies cfg true = false by simp [suffixApplies, hopt]]; exact Bool.false_ne_true)]

/-- C7: with suffix "_SFX" targeted at files (and no keywords or level
limit), every file record's token is the decimal counter followed by "_SFX",
no directory record's token carries the suffix, and every enumerated
directory's child tokens are the expected consecutive decorated counters
from its level's start value — the suffix is stripped before the counter
advances, so a file recorded as "2_SFX" is followed by the sibling counter
3, never "2_SFX1". -/
theorem claim_C7_suffix_on_files_only (cfg : Config) (fuel : Nat) (rootName : String)
    (children : List FSTree) (recs : List Record)
    (hkw : cfg.keywordsList = none) (hs : cfg.sfx = some "_SFX")
    (hopt : cfg.suffixOptions = "apply_to_files") (hlim : cfg.levelLimit = none)
    (hdn : distinctNames children = true) (hwf : wfForest children = true)
    (h : init_records cfg fuel rootName children = .ok recs) :
    (∀ x ∈ recs, x.attr = "File" →
      ∃ n : Int, x.refSection = .str (intToStr n ++ "_SFX")) ∧
    (∀ x ∈ recs, x.attr = "Dir" → ∃ n : Int, x.refSection = .num n) ∧
    (∀ x ∈ recs, x.attr = "Dir" → ∃ cs : List FSTree,
      childTokens recs x.fullName =
        expectedTokens cfg (if x.level = 0 then cfg.startRef else 1) cs) := by
  unfold init_records list_directories at h
  cases hb : enumChildren cfg fuel [rootName] (filter_directories cfg children)
      cfg.startRef none with
  | error e => rw [hb] at h; exact Except.noConfusion h
  | ok body =>
      rw [hb] at h
      injection h with h
      subst h
      have inv := enum_invariant cfg hkw hlim (suffixClean_sfx hs hopt) fuel [rootName]
        (filter_directories cfg children) cfg.startRef body
        (distinctNames_filter_directories cfg children hdn)
        (wfForest_filter_directories cfg children hwf) hb
      refine ⟨?_, ?_, ?_⟩
      · intro x hx hattr
        rcases List.mem_cons.1 hx with rfl | hxb
        · simp at hattr
        · obtain ⟨n, hn⟩ := inv.tokShape x hxb
          rw [hattr] at hn
          rw [show (("File" : String) == "Dir") = false from rfl] at hn
          exact ⟨n, hn.trans (expectedTok_sfx_file hs hopt n)⟩
      · intro x hx hattr
        rcases List.mem_cons.1 hx with rfl | hxb
        · exact ⟨0, rfl⟩
        · obtain ⟨n, hn⟩ := inv.tokShape x hxb
          rw [hattr] at hn
          rw [show (("Dir" : String) == "Dir") = true from rfl] at hn
          exact ⟨n, hn.trans (expectedTok_sfx_dir hs hopt n)⟩
      · intro x hx hattr
        rcases List.mem_cons.1 hx with rfl | hxb
        · refine ⟨filter_directories cfg children, ?_⟩
          rw [childTokens_cons]
          simp [inv.tokens]
        · have hlev : x.level = x.parent.length := inv.levels x hxb
          have hlen1 : 1 ≤ x.parent.length := by
            rcases inv.parents x hxb with hp | ⟨c', _, hpre⟩
            · rw [hp]; simp
            · have := snoc_prefix_length hpre
              simp only [List.length_cons, List.length_nil] at this
              omega
          have hlev0 : ¬ x.level = 0 := by omega
          obtain ⟨cs', hcs'⟩ := inv.subTokens x hxb hattr
          obtain ⟨nm', hnm'⟩ := inv.shape x hxb
          refine ⟨cs', ?_⟩
          rw [childTokens_cons]
          have hne : ¬ (([] : FPath) = x.fullName) := by
            rw [hnm']
            simp
          simp [hne, hcs', hlev0]

/-- C7 witness: the suffix test on a concrete tree; the file recorded as
2_SFX is followed by the sibling counter 3 (token 3_SFX, a file), the
directory record D carries the bare counter 1, and every directory's child
tokens are the expected decorated consecutive counters. -/
theorem claim_C7_witness :
    init_records c7cfg 8 "root" c7tree = .ok c7recs ∧
      ((∀ x ∈ c7recs, x.attr = "File" →
          ∃ n : Int, x.refSection = .str (intToStr n ++ "_SFX")) ∧
       (∀ x ∈ c7recs, x.attr = "Dir" → ∃ n : Int, x.refSection = .num n) ∧
       (∀ x ∈ c7recs, x.attr = "Dir" → ∃ cs : List FSTree,
          childTokens c7recs x.fullName =
            expectedTokens c7cfg (if x.level = 0 then c7cfg.startRef else 1) cs)) :=
  ⟨rfl, claim_C7_suffix_on_files_only c7cfg 8 "root" c7tree c7recs
      rfl rfl rfl rfl rfl rfl rfl⟩
